import Mathlib

/-!
Verification of `jloveric/functional-layers`.

Shallow embedding of:
* `src/high_order_layers_torch/networks.py` — `HighOrderMLP.__init__`,
  `HighOrderFullyConvolutionalNetwork.__init__`, `interpolate_high_order_mlp`;
* `src/functional_layers/FunctionalConvolution.py` — `Expansion2d.__call__`.

Machine floats are modelled as exact rationals `ℚ`; "within floating-point
tolerance" becomes exact equality over `ℚ`.
-/

namespace FunctionalLayers

/-! ## Polynomial (Lagrange) layers

`interpolate_polynomial_layer` lives in `high_order_layers_torch/PolynomialLayers.py`,
which is not part of this repository's sources; the layer data and the
resampling step are therefore modelled from the spec (§3 Layer, §4.5).
-/

/-- A weight-bearing layer owning a piecewise-polynomial basis: the basis is
determined by its interpolation nodes, and the mixing weights are one value per
node (the 1-wide fully-connected case; §3 "Layer"). -/
structure PolyLayer where
  nodes : List ℚ
  weights : List ℚ
deriving DecidableEq, Repr

/-- Value of the `i`-th Lagrange nodal basis polynomial of the node list at `x`
(§4.1: product of `(x - xⱼ)/(xᵢ - xⱼ)` over the other nodes). -/
def basisEvalQ (nodes : List ℚ) (i : ℕ) (x : ℚ) : ℚ :=
  ∏ j ∈ (Finset.range nodes.length).erase i,
    (x - nodes.getD j 0) / (nodes.getD i 0 - nodes.getD j 0)

/-- The function computed by a polynomial layer: the weighted sum of the
Lagrange nodal basis values (§4.3 `output = mix(expand(basis, input))`). -/
def layerEval (l : PolyLayer) (x : ℚ) : ℚ :=
  ∑ i ∈ Finset.range l.nodes.length, l.weights.getD i 0 * basisEvalQ l.nodes i x

/-- Modelled from the spec: `interpolate_polynomial_layer` (absent from `src/`)
overwrites the target layer's weights with the source layer's output resampled
at the target's nodes (§4.5 steps 1–3: "the target mixing weight row associated
with a given target node equals the source layer's output evaluated at that
node's input value"). -/
def refineLayer (src : PolyLayer) (tgtNodes : List ℚ) : PolyLayer :=
  ⟨tgtNodes, (List.range tgtNodes.length).map fun j => layerEval src (tgtNodes.getD j 0)⟩

/-- Node lookup of a layer's node list, as a total function on indices. -/
def nodeAt (nodes : List ℚ) (i : ℕ) : ℚ := nodes.getD i 0

/-! ## The Order-Interpolation Engine (`interpolate_high_order_mlp`)

`networks.py` lines 380–394.  A network's `model` is an `nn.Sequential` whose
children are the entries of `layer_list`: weight-bearing high-order layers,
the normalization module, and nonlinearity instances.  `model.modules()`
yields the `Sequential` container itself followed by its children; the list
comprehension keeps every module that is not an `nn.Sequential`.
-/

/-- A module as seen by `interpolate_high_order_mlp`: the `nn.Sequential`
container, a weight-bearing polynomial layer, a normalization module, or a
nonlinearity instance. -/
inductive EModule where
  | seqContainer : EModule
  | poly : PolyLayer → EModule
  | norm : EModule
  | nonlin : EModule
deriving DecidableEq, Repr

/-- Holds exactly on the `nn.Sequential` container (`isinstance(module, nn.Sequential)`). -/
def EModule.isSeq : EModule → Bool
  | .seqContainer => true
  | _ => false

/-- The list `network.model.modules()`: the `Sequential` container followed by the
entries of its `layer_list` (the entries themselves are leaf modules). -/
def modulesOf (layerList : List EModule) : List EModule :=
  EModule.seqContainer :: layerList

/-- The comprehension `[module for module in network.model.modules() if not isinstance(module, nn.Sequential)]`
(`networks.py` lines 380–389). -/
def engineLayers (layerList : List EModule) : List EModule :=
  (modulesOf layerList).filter (fun m => !m.isSeq)

/-- The pairing `layer_pairs = zip(layers_in, layers_out)` (`networks.py` line 391). -/
def enginePairs (netIn netOut : List EModule) : List (EModule × EModule) :=
  List.zip (engineLayers netIn) (engineLayers netOut)

/-- Modelled from the spec: the effect of `interpolate_polynomial_layer`
(absent from `src/`) on one paired module — a weight-bearing pair has the
target's weights overwritten with the source function resampled at the
target's nodes (§4.5); on structural markers it is modelled as a no-op. -/
def interpPolyLayer (lIn lOut : EModule) : EModule :=
  match lIn, lOut with
  | .poly src, .poly tgt => .poly (refineLayer src tgt.nodes)
  | _, _ => lOut

/-- The target network's module list after `interpolate_high_order_mlp`
finishes: each module paired by `zip` is overwritten in place, modules beyond
the shorter list are untouched (the `for` loop over `zip`, lines 391–394). -/
def runEngine (netIn netOut : List EModule) : List EModule :=
  List.zipWith interpPolyLayer (engineLayers netIn) (engineLayers netOut) ++
    (engineLayers netOut).drop (engineLayers netIn).length

/-- Forward evaluation of a chain of 1-wide polynomial layers (§2 data flow,
specialised to weight-bearing layers only). -/
def netEval (net : List PolyLayer) (x : ℚ) : ℚ :=
  net.foldl (fun a l => layerEval l a) x

/-- Forward evaluation of a module list consisting of polynomial layers. -/
def forwardE (net : List EModule) (x : ℚ) : ℚ :=
  net.foldl (fun a m => match m with | .poly p => layerEval p a | _ => a) x

/-! ## Network construction (`HighOrderMLP.__init__`, lines 59–110, and
`HighOrderFullyConvolutionalNetwork.__init__`, lines 132–173)

The layer factories `high_order_fc_layers` / `high_order_convolution_layers`
are external collaborators (spec §1, §6); a constructed layer is modelled as a
record of the arguments the constructor passes to the factory.  The
normalization argument is a single module object appended by reference; object
identity is modelled by a tag.  `non_linearity` is a class called afresh
(`non_linearity()`) at each insertion point.
-/

/-- An entry of a network's `layer_list`: a fully-connected high-order layer
(recording the factory arguments), a convolutional high-order layer, the
normalization module (tagged with its object identity), or a fresh
nonlinearity instance. -/
inductive NMod where
  | fc (layerType : String) (n : ℤ) (inFeatures outFeatures : ℕ) (segments : Option ℤ) : NMod
  | conv (layerType : String) (n : ℕ) (inChannels outChannels kernelSize segments : ℕ) : NMod
  | normM (tag : ℕ) : NMod
  | nonlinM : NMod
deriving DecidableEq, Repr

/-- Python's `a or b` for an optional integer `a` (`n_in = n_in or n`,
lines 61–63): `None` and `0` are falsy, so both fall back to `b`. -/
def pyOr (a : Option ℤ) (b : ℤ) : ℤ :=
  match a with
  | none => b
  | some v => if v = 0 then b else v

/-- The `[normalization]` fragment appended when `normalization is not None`. -/
def normPart (norm : Option ℕ) : List NMod :=
  match norm with
  | none => []
  | some t => [NMod.normM t]

/-- The `[non_linearity()]` fragment appended when `non_linearity is not None`. -/
def nonlinPart (nonlin : Bool) : List NMod :=
  if nonlin then [NMod.nonlinM] else []

/-- The constructor `HighOrderMLP.__init__` (`networks.py` lines 59–110): the `layer_list`
handed to `nn.Sequential`.  Input layer; per hidden layer, optional
normalization, optional nonlinearity, then the hidden layer; then the
nonlinearity appended twice; then the output layer. -/
def mlpLayerList (layerType : String) (n : ℤ) (inWidth outWidth hiddenWidth : ℕ)
    (hiddenLayers : ℕ) (nIn nOut nHidden : Option ℤ)
    (inSegments outSegments hiddenSegments : Option ℤ)
    (norm : Option ℕ) (nonlin : Bool) : List NMod :=
  let nIn' := pyOr nIn n
  let nHidden' := pyOr nHidden n
  let nOut' := pyOr nOut n
  [NMod.fc layerType nIn' inWidth hiddenWidth inSegments] ++
    (List.range hiddenLayers).flatMap (fun _ =>
      normPart norm ++ nonlinPart nonlin ++
        [NMod.fc layerType nHidden' hiddenWidth hiddenWidth hiddenSegments]) ++
    nonlinPart nonlin ++ nonlinPart nonlin ++
    [NMod.fc layerType nOut' hiddenWidth outWidth outSegments]

/-- Python `x is False` for an integer value `x` (the final link of the
chained comparisons on lines 139–146 and 151): an `int` is never the object
`False`, so this is always false. -/
def intIsFalse (_ : ℕ) : Bool := false

/-- The validation of `HighOrderFullyConvolutionalNetwork.__init__`
(`networks.py` lines 134–154), with Python's chained-comparison semantics:
`a == b == c == d == e is False` is the conjunction of the adjacent
comparisons, ending in `e is False`.  Returns the message of the `ValueError`
raised, or `none` when construction proceeds. -/
def hocnnConfigError (channels segments kernelSize : List ℕ) (layerType : List String)
    (n : List ℕ) : Option String :=
  if channels.length < 2 then
    some ("Channels list must have at least 2 values [input_channels, output_channels]")
  else if (channels.length == segments.length && segments.length == kernelSize.length &&
      kernelSize.length == layerType.length && layerType.length == n.length &&
      intIsFalse n.length) then
    some ("Lists for channels, segments, kernel_size, layer_type and n must be the same size.")
  else if (channels.length == n.length + 1 && intIsFalse (n.length + 1)) then
    some ("Length of channels list should be one more than number of layers.")
  else
    none

/-- The constructor `HighOrderFullyConvolutionalNetwork.__init__` (`networks.py` lines
156–173): the `layer_list` built by the loop — for every `i` in
`range(len(channels) - 1)`, the normalization module (when supplied) then the
convolutional layer for stage `i`.  (Python indexing raises `IndexError` when
a per-layer list is shorter than `len(channels) - 1`; list accesses are
modelled totally with `getD`, and the in-bounds requirement is stated
separately where a claim depends on it.) -/
def convLayerList (layerType : List String) (n channels segments kernelSize : List ℕ)
    (norm : Option ℕ) : List NMod :=
  (List.range (channels.length - 1)).flatMap (fun i =>
    normPart norm ++
      [NMod.conv (layerType.getD i ("")) (n.getD i 0) (channels.getD i 0)
        (channels.getD (i + 1) 0) (kernelSize.getD i 0) (segments.getD i 0)])

/-- Holds of a module exactly when it is a weight-bearing layer (as opposed to
a structural marker or the container). -/
def EModule.isWeightBearing : EModule → Bool
  | .poly _ => true
  | _ => false

/-- Basis order recorded in a fully-connected layer entry, if any. -/
def fcOrderIs (k : ℤ) : NMod → Bool
  | .fc _ j _ _ _ => j == k
  | _ => true

/-- The convolutional layer the loop of
`HighOrderFullyConvolutionalNetwork.__init__` builds for stage `i`. -/
def convStage (layerType : List String) (n channels segments kernelSize : List ℕ) (i : ℕ) :
    NMod :=
  NMod.conv (layerType.getD i ("")) (n.getD i 0) (channels.getD i 0)
    (channels.getD (i + 1) 0) (kernelSize.getD i 0) (segments.getD i 0)

/-! ## Expansion2d (`src/functional_layers/FunctionalConvolution.py` lines 21–29)

A tensor of shape `(d₀, …, dₖ)` is modelled as a function
`Fin d₀ → ⋯ → Fin dₖ → ℚ`.  The input batch has shape `(B, C, H, W)`.
-/

/-- Modelled from the spec: `self.basis(inputs)` (`LagrangeExpand` /
`FourierExpand`, absent from `src/`) applies the order-`n` basis per element
and stacks the `n` coefficients along a new leading axis, giving shape
`(n, B, C, H, W)` (§4.2: "apply the Basis Family element-wise to produce, per
input element, a size-`n` coefficient vector").  The basis itself is an
arbitrary map from a scalar to its `n` coefficients. -/
def basisApply (n B C H W : ℕ) (basis : ℚ → Fin n → ℚ)
    (input : Fin B → Fin C → Fin H → Fin W → ℚ) :
    Fin n → Fin B → Fin C → Fin H → Fin W → ℚ :=
  fun k b c h w => basis (input b c h w) k

/-- The permutation `res.permute(1, 3, 4, 2, 0)` (line 23): output axis `j`
reads input axis `dims[j]`, turning shape `(n, B, C, H, W)` into
`(B, H, W, C, n)`. -/
def permute13420 {n B C H W : ℕ} (t : Fin n → Fin B → Fin C → Fin H → Fin W → ℚ) :
    Fin B → Fin H → Fin W → Fin C → Fin n → ℚ :=
  fun b h w c k => t k b c h w

/-- The reshape at lines 24–27 merging the two trailing axes `(C, n)` of a
`(B, H, W, C, n)` tensor row-major into one axis of size `C*n`: combined
index `e` decomposes as `(e / n, e % n)`. -/
def mergeLastTwo {B H W C n : ℕ} (t : Fin B → Fin H → Fin W → Fin C → Fin n → ℚ) :
    Fin B → Fin H → Fin W → Fin (C * n) → ℚ :=
  fun b h w e =>
    have hn : 0 < n := by
      rcases Nat.eq_zero_or_pos n with h0 | h0
      · exact absurd e.2 (by simp [h0])
      · exact h0
    t b h w ⟨e.1 / n, (Nat.div_lt_iff_lt_mul hn).mpr e.2⟩ ⟨e.1 % n, Nat.mod_lt _ hn⟩

/-- The permutation `res.permute(0, 3, 1, 2)` (line 28), turning shape
`(B, H, W, C·n)` into `(B, C·n, H, W)`. -/
def permute0312 {B H W Cn : ℕ} (t : Fin B → Fin H → Fin W → Fin Cn → ℚ) :
    Fin B → Fin Cn → Fin H → Fin W → ℚ :=
  fun b e h w => t b h w e

/-- The whole of `Expansion2d.__call__` (lines 21–29): basis expansion, axis
permutation, reshape, axis permutation.  The return type records the output
shape `(B, C·n, H, W)`. -/
def expansion2d (n B C H W : ℕ) (basis : ℚ → Fin n → ℚ)
    (input : Fin B → Fin C → Fin H → Fin W → ℚ) :
    Fin B → Fin (C * n) → Fin H → Fin W → ℚ :=
  permute0312 (mergeLastTwo (permute13420 (basisApply n B C H W basis input)))

/-- The expanded-channel index holding coefficient `k` of logical channel `c`:
coefficient index varies fastest within each logical channel's block. -/
def chanIndex {C n : ℕ} (c : Fin C) (k : Fin n) : Fin (C * n) :=
  ⟨c.1 * n + k.1, by
    have h1 : c.1 * n + k.1 < c.1 * n + n := Nat.add_lt_add_left k.2 _
    have h2 : c.1 * n + n = (c.1 + 1) * n := by ring
    have h3 : (c.1 + 1) * n ≤ C * n := Nat.mul_le_mul_right n (Nat.succ_le_of_lt c.2)
    exact lt_of_lt_of_le (h2 ▸ h1) h3⟩

lemma basisEvalQ_eq_eval_basis (nodes : List ℚ) (i : ℕ) (x : ℚ) :
    basisEvalQ nodes i x =
      (Lagrange.basis (Finset.range nodes.length) (nodeAt nodes) i).eval x := by
  unfold basisEvalQ Lagrange.basis
  rw [Polynomial.eval_prod]
  refine Finset.prod_congr rfl fun j _ => ?_
  simp [Lagrange.basisDivisor, nodeAt, div_eq_mul_inv, mul_comm]

lemma layerEval_eq_eval_interpolate (l : PolyLayer) (x : ℚ) :
    layerEval l x =
      (Lagrange.interpolate (Finset.range l.nodes.length) (nodeAt l.nodes)
        (fun i => l.weights.getD i 0)).eval x := by
  unfold layerEval
  rw [Lagrange.interpolate_apply, Polynomial.eval_finset_sum]
  refine Finset.sum_congr rfl fun i _ => ?_
  rw [Polynomial.eval_mul, Polynomial.eval_C, basisEvalQ_eq_eval_basis]

lemma nodup_injOn_nodeAt {nodes : List ℚ} (h : nodes.Nodup) :
    Set.InjOn (nodeAt nodes) (Finset.range nodes.length) := by
  intro i hi j hj hij
  simp only [Finset.coe_range, Set.mem_Iio] at hi hj
  have hi' := List.getD_eq_getElem nodes 0 hi
  have hj' := List.getD_eq_getElem nodes 0 hj
  unfold nodeAt at hij
  rw [hi', hj'] at hij
  exact (List.Nodup.getElem_inj_iff h).mp hij

/-- Per-layer p-refinement exactness: resampling a source layer at the nodes of
a target basis of at least the source's order reproduces the source layer's
function everywhere. -/
lemma layerEval_refineLayer (src : PolyLayer) (tgtNodes : List ℚ)
    (hsrc : src.nodes.Nodup) (htgt : tgtNodes.Nodup)
    (hord : src.nodes.length ≤ tgtNodes.length) (x : ℚ) :
    layerEval (refineLayer src tgtNodes) x = layerEval src x := by
  have hinj_s := nodup_injOn_nodeAt hsrc
  have hinj_t := nodup_injOn_nodeAt htgt
  set p : Polynomial ℚ :=
    Lagrange.interpolate (Finset.range src.nodes.length) (nodeAt src.nodes)
      (fun i => src.weights.getD i 0) with hp
  have hdeg : p.degree < (Finset.range src.nodes.length).card :=
    Lagrange.degree_interpolate_lt _ hinj_s
  have hdeg' : p.degree < (Finset.range tgtNodes.length).card := by
    refine lt_of_lt_of_le hdeg ?_
    simp only [Finset.card_range]
    exact_mod_cast hord
  have hkey : p = Lagrange.interpolate (Finset.range tgtNodes.length) (nodeAt tgtNodes)
      (fun i => p.eval (nodeAt tgtNodes i)) :=
    Lagrange.eq_interpolate hinj_t hdeg'
  have hw : ∀ i ∈ Finset.range tgtNodes.length,
      (refineLayer src tgtNodes).weights.getD i 0 = p.eval (nodeAt tgtNodes i) := by
    intro i hi
    simp only [Finset.mem_range] at hi
    unfold refineLayer
    simp only
    rw [List.getD_eq_getElem _ 0 (by simpa using hi)]
    simp only [List.getElem_map, List.getElem_range]
    rw [layerEval_eq_eval_interpolate, ← hp, nodeAt]
  calc layerEval (refineLayer src tgtNodes) x
      = (Lagrange.interpolate (Finset.range tgtNodes.length) (nodeAt tgtNodes)
          (fun i => (refineLayer src tgtNodes).weights.getD i 0)).eval x := by
        rw [layerEval_eq_eval_interpolate]; rfl
    _ = (Lagrange.interpolate (Finset.range tgtNodes.length) (nodeAt tgtNodes)
          (fun i => p.eval (nodeAt tgtNodes i))).eval x := by
        rw [Lagrange.interpolate_eq_of_values_eq_on _ _ hw]
    _ = p.eval x := by rw [← hkey]
    _ = layerEval src x := (layerEval_eq_eval_interpolate src x).symm

lemma engineLayers_of_noSeq {net : List EModule} (h : ∀ m ∈ net, m.isSeq = false) :
    engineLayers net = net := by
  unfold engineLayers modulesOf
  rw [List.filter_cons]
  have hseq : (!EModule.seqContainer.isSeq) = false := rfl
  rw [hseq]
  simp only [Bool.false_eq_true, if_false, List.filter_eq_self]
  intro a ha
  simp [h a ha]

lemma engineLayers_map_poly (ls : List PolyLayer) :
    engineLayers (ls.map EModule.poly) = ls.map EModule.poly := by
  refine engineLayers_of_noSeq fun m hm => ?_
  obtain ⟨l, _, rfl⟩ := List.mem_map.mp hm
  rfl

lemma forwardE_map_poly (ls : List PolyLayer) (x : ℚ) :
    forwardE (ls.map EModule.poly) x = netEval ls x := by
  induction ls generalizing x with
  | nil => rfl
  | cons l t ih => simp only [List.map_cons, forwardE, netEval, List.foldl_cons]; exact ih _

lemma runEngine_map_poly (src tgt : List PolyLayer) (hlen : src.length = tgt.length) :
    runEngine (src.map EModule.poly) (tgt.map EModule.poly) =
      (List.zipWith (fun s t => refineLayer s t.nodes) src tgt).map EModule.poly := by
  unfold runEngine
  rw [engineLayers_map_poly, engineLayers_map_poly]
  rw [List.drop_eq_nil_of_le (by simp [hlen]), List.append_nil]
  induction src generalizing tgt with
  | nil => simp
  | cons s ss ih =>
    cases tgt with
    | nil => simp at hlen
    | cons t ts =>
      simp only [List.map_cons, List.zipWith_cons_cons, interpPolyLayer, List.map]
      exact congrArg _ (ih ts (by simpa using hlen))

lemma netEval_refined (src tgt : List PolyLayer)
    (hlen : src.length = tgt.length)
    (hcond : ∀ i < src.length,
      (src.getD i ⟨[], []⟩).nodes.Nodup ∧ (tgt.getD i ⟨[], []⟩).nodes.Nodup ∧
        (src.getD i ⟨[], []⟩).nodes.length ≤ (tgt.getD i ⟨[], []⟩).nodes.length)
    (x : ℚ) :
    netEval (List.zipWith (fun s t => refineLayer s t.nodes) src tgt) x = netEval src x := by
  induction src generalizing tgt x with
  | nil => simp [netEval]
  | cons s ss ih =>
    cases tgt with
    | nil => simp at hlen
    | cons t ts =>
      have h0 := hcond 0 (by simp)
      simp only [List.getD_cons_zero] at h0
      simp only [List.zipWith_cons_cons, netEval, List.foldl_cons]
      rw [show (List.foldl (fun a l => layerEval l a)
            (layerEval (refineLayer s t.nodes) x) (List.zipWith (fun s t => refineLayer s t.nodes) ss ts)) =
          netEval (List.zipWith (fun s t => refineLayer s t.nodes) ss ts)
            (layerEval (refineLayer s t.nodes) x) from rfl]
      rw [layerEval_refineLayer s t.nodes h0.1 h0.2.1 h0.2.2 x]
      exact ih ts (by simpa using hlen)
        (fun i hi => by simpa using hcond (i + 1) (by simpa using hi)) _

lemma normPart_count_nonlin (norm : Option ℕ) : (normPart norm).count NMod.nonlinM = 0 := by
  cases norm <;> simp [normPart]

lemma count_nonlin_blocks (norm : Option ℕ) (body : List NMod)
    (hbody : body.count NMod.nonlinM = 1) :
    ∀ hL : ℕ, ((List.range hL).flatMap fun _ => normPart norm ++ body).count NMod.nonlinM = hL := by
  intro hL
  induction hL with
  | zero => simp
  | succ m ih =>
    rw [List.range_succ, List.flatMap_append]
    simp only [List.flatMap_cons, List.flatMap_nil, List.append_nil, List.count_append]
    rw [ih, normPart_count_nonlin, hbody]

/-- C5: constructing `HighOrderFullyConvolutionalNetwork` with a `channels`
list of fewer than 2 entries raises the `ValueError` at `networks.py` lines
134–137, before any layer is built. -/
theorem C5_short_channels_config_error (channels segments kernelSize : List ℕ)
    (layerType : List String) (n : List ℕ) (h : channels.length < 2) :
    hocnnConfigError channels segments kernelSize layerType n =
      some ("Channels list must have at least 2 values [input_channels, output_channels]") := by
  unfold hocnnConfigError
  rw [if_pos h]

/-- Witness for C5 at the concrete input `channels = [1]`. -/
theorem C5_short_channels_witness :
    ([1] : List ℕ).length < 2 ∧
      hocnnConfigError [1] [1] [3] [("continuous")] [2] =
        some ("Channels list must have at least 2 values [input_channels, output_channels]") :=
  ⟨by decide, C5_short_channels_config_error [1] [1] [3] [("continuous")] [2] (by decide)⟩

/-- C4: the list-length validation of
`HighOrderFullyConvolutionalNetwork.__init__` never fires.  Both guards
(`networks.py` lines 139–154) are Python chained comparisons whose final link
is `... is False`, and an `int` is never the object `False`, so whenever
`channels` has at least 2 entries the constructor raises no configuration
error at all — mismatched per-layer list lengths included.  The claimed
`ValueError` for `len(channels) != len(n) + 1` is therefore unreachable; with
`channels = [1, 2]` and `n = []` construction proceeds into the layer loop and
fails there with an `IndexError` (`n[0]` with `len(n) = 0`), not with a
configuration error before any layer is built. -/
theorem C4_mismatch_guards_never_fire (channels segments kernelSize : List ℕ)
    (layerType : List String) (n : List ℕ) (h : 2 ≤ channels.length) :
    hocnnConfigError channels segments kernelSize layerType n = none := by
  unfold hocnnConfigError
  rw [if_neg (by omega)]
  simp [intIsFalse]

/-- Witness for C4 at the claim's failing input: `channels = [1, 2]`,
`segments = [1]`, `kernel_size = [3]`, `layer_type = ["continuous"]`,
`n = []` — no configuration error, yet the layer loop needs `n[0]` while `n`
is empty. -/
theorem C4_mismatch_guards_witness :
    2 ≤ ([1, 2] : List ℕ).length ∧
      hocnnConfigError [1, 2] [1] [3] [("continuous")] [] = none ∧
      ([] : List ℕ).length < ([1, 2] : List ℕ).length - 1 :=
  ⟨by decide, C4_mismatch_guards_never_fire [1, 2] [1] [3] [("continuous")] [] (by decide),
    by decide⟩

/-- C8: in `HighOrderMLP.__init__`, per-stage basis orders left as `None`
default to the global `n` (`networks.py` lines 61–63), so with `n_in`,
`n_out` and `n_hidden` all unset the input, hidden and output layers are all
built with order `n`: every fully-connected entry of the layer list carries
order `n`, and the list equals the fully-resolved layer list. -/
theorem C8_unset_orders_default_to_global_n (layerType : String) (n : ℤ)
    (inWidth outWidth hiddenWidth hiddenLayers : ℕ)
    (inSegments outSegments hiddenSegments : Option ℤ) (norm : Option ℕ) (nonlin : Bool) :
    (mlpLayerList layerType n inWidth outWidth hiddenWidth hiddenLayers
        none none none inSegments outSegments hiddenSegments norm nonlin).all
      (fcOrderIs n) = true ∧
    mlpLayerList layerType n inWidth outWidth hiddenWidth hiddenLayers
        none none none inSegments outSegments hiddenSegments norm nonlin =
      [NMod.fc layerType n inWidth hiddenWidth inSegments] ++
        (List.range hiddenLayers).flatMap (fun _ =>
          normPart norm ++ nonlinPart nonlin ++
            [NMod.fc layerType n hiddenWidth hiddenWidth hiddenSegments]) ++
        nonlinPart nonlin ++ nonlinPart nonlin ++
        [NMod.fc layerType n hiddenWidth outWidth outSegments] := by
  refine ⟨?_, rfl⟩
  simp only [List.all_eq_true, mlpLayerList, pyOr, List.mem_append, List.mem_flatMap,
    List.mem_range, List.mem_cons, List.mem_singleton]
  intro m hm
  rcases hm with ((((hm | ⟨i, _, hm⟩) | hm) | hm) | hm)
  · rcases hm with hm | hm
    · subst hm; simp [fcOrderIs]
    · simp at hm
  · rcases hm with (hm | hm) | (hm | hm)
    · cases norm <;> simp [normPart] at hm <;> subst hm <;> rfl
    · cases nonlin <;> simp [nonlinPart] at hm <;> subst hm <;> rfl
    · subst hm; simp [fcOrderIs]
    · simp at hm
  · cases nonlin <;> simp [nonlinPart] at hm <;> subst hm <;> rfl
  · cases nonlin <;> simp [nonlinPart] at hm <;> subst hm <;> rfl
  · rcases hm with hm | hm
    · subst hm; simp [fcOrderIs]
    · simp at hm

/-- C10: a `HighOrderMLP` built with `hidden_layers = 0` contains no
normalization entry at all — normalization is appended only inside the hidden
layer loop (`networks.py` lines 76–78) — while the nonlinearity is still
appended twice between the input layer and the output layer (lines 94–97). -/
theorem C10_no_normalization_when_no_hidden_layers (layerType : String) (n : ℤ)
    (inWidth outWidth hiddenWidth : ℕ) (nIn nOut nHidden : Option ℤ)
    (inSegments outSegments hiddenSegments : Option ℤ) (norm : Option ℕ) :
    mlpLayerList layerType n inWidth outWidth hiddenWidth 0
        nIn nOut nHidden inSegments outSegments hiddenSegments norm true =
      [NMod.fc layerType (pyOr nIn n) inWidth hiddenWidth inSegments,
        NMod.nonlinM, NMod.nonlinM,
        NMod.fc layerType (pyOr nOut n) hiddenWidth outWidth outSegments] ∧
    ∀ t : ℕ, NMod.normM t ∉
      mlpLayerList layerType n inWidth outWidth hiddenWidth 0
        nIn nOut nHidden inSegments outSegments hiddenSegments norm true := by
  constructor
  · simp [mlpLayerList, nonlinPart]
  · intro t
    simp [mlpLayerList, nonlinPart]

lemma blockFlat_count (t : ℕ) (f : ℕ → NMod) (hf : ∀ i, f i ≠ NMod.normM t) :
    ∀ k : ℕ, ((List.range k).flatMap fun i => [NMod.normM t, f i]).count (NMod.normM t) = k := by
  intro k
  induction k with
  | zero => simp
  | succ m ih =>
    rw [List.range_succ, List.flatMap_append]
    simp only [List.flatMap_cons, List.flatMap_nil, List.append_nil, List.count_append, ih]
    simp [List.count_cons, hf m]

lemma blockFlat_mem_norm (t : ℕ) (f : ℕ → NMod) (hf : ∀ i s, f i ≠ NMod.normM s)
    (k s : ℕ) (h : NMod.normM s ∈ (List.range k).flatMap fun i => [NMod.normM t, f i]) :
    s = t := by
  rcases List.mem_flatMap.mp h with ⟨i, _, hm⟩
  simp only [List.mem_cons] at hm
  rcases hm with hm | hm | hm
  · simpa using hm
  · exact absurd hm.symm (hf i s)
  · simp at hm

lemma blockFlat_head (t : ℕ) (f : ℕ → NMod) (k : ℕ) (h : 0 < k) :
    ((List.range k).flatMap fun i => [NMod.normM t, f i]).head? = some (NMod.normM t) := by
  cases k with
  | zero => omega
  | succ m =>
    rw [List.range_succ_eq_map]
    simp [List.flatMap_cons]

lemma blockFlat_getLast (t : ℕ) (f : ℕ → NMod) (k : ℕ) (h : 0 < k) :
    ((List.range k).flatMap fun i => [NMod.normM t, f i]).getLast? = some (f (k - 1)) := by
  cases k with
  | zero => omega
  | succ m =>
    rw [List.range_succ, List.flatMap_append]
    rw [List.getLast?_append_of_ne_nil _ (by simp)]
    simp

/-- C6: a `HighOrderMLP` built with a non-`None` nonlinearity appends the
nonlinearity once before each hidden layer (`networks.py` lines 79–80) and
then twice more, consecutively, immediately before the output layer (lines
94–97): the layer list ends in the three entries nonlinearity, nonlinearity,
output layer, and the nonlinearity occurs `hidden_layers + 2` times in
total. -/
theorem C6_double_nonlinearity_before_output (layerType : String) (n : ℤ)
    (inWidth outWidth hiddenWidth hiddenLayers : ℕ) (nIn nOut nHidden : Option ℤ)
    (inSegments outSegments hiddenSegments : Option ℤ) (norm : Option ℕ) :
    mlpLayerList layerType n inWidth outWidth hiddenWidth hiddenLayers
        nIn nOut nHidden inSegments outSegments hiddenSegments norm true =
      [NMod.fc layerType (pyOr nIn n) inWidth hiddenWidth inSegments] ++
        (List.range hiddenLayers).flatMap (fun _ =>
          normPart norm ++
            [NMod.nonlinM, NMod.fc layerType (pyOr nHidden n) hiddenWidth hiddenWidth
              hiddenSegments]) ++
        [NMod.nonlinM, NMod.nonlinM,
          NMod.fc layerType (pyOr nOut n) hiddenWidth outWidth outSegments] ∧
    (mlpLayerList layerType n inWidth outWidth hiddenWidth hiddenLayers
        nIn nOut nHidden inSegments outSegments hiddenSegments norm true).count
      NMod.nonlinM = hiddenLayers + 2 ∧
    List.IsSuffix
      [NMod.nonlinM, NMod.nonlinM,
        NMod.fc layerType (pyOr nOut n) hiddenWidth outWidth outSegments]
      (mlpLayerList layerType n inWidth outWidth hiddenWidth hiddenLayers
        nIn nOut nHidden inSegments outSegments hiddenSegments norm true) := by
  have hpat : mlpLayerList layerType n inWidth outWidth hiddenWidth hiddenLayers
      nIn nOut nHidden inSegments outSegments hiddenSegments norm true =
    [NMod.fc layerType (pyOr nIn n) inWidth hiddenWidth inSegments] ++
      (List.range hiddenLayers).flatMap (fun _ =>
        normPart norm ++
          [NMod.nonlinM, NMod.fc layerType (pyOr nHidden n) hiddenWidth hiddenWidth
            hiddenSegments]) ++
      [NMod.nonlinM, NMod.nonlinM,
        NMod.fc layerType (pyOr nOut n) hiddenWidth outWidth outSegments] := by
    simp [mlpLayerList, nonlinPart]
  refine ⟨hpat, ?_, ?_⟩
  · rw [hpat]
    have hblocks := count_nonlin_blocks norm
      [NMod.nonlinM, NMod.fc layerType (pyOr nHidden n) hiddenWidth hiddenWidth hiddenSegments]
      (by simp) hiddenLayers
    simp only [List.count_append, hblocks]
    have h1 : List.count NMod.nonlinM
        [NMod.fc layerType (pyOr nIn n) inWidth hiddenWidth inSegments] = 0 := by simp
    have h2 : List.count NMod.nonlinM
        [NMod.nonlinM, NMod.nonlinM,
          NMod.fc layerType (pyOr nOut n) hiddenWidth outWidth outSegments] = 2 := by
      simp [List.count_cons]
    omega
  · refine ⟨[NMod.fc layerType (pyOr nIn n) inWidth hiddenWidth inSegments] ++
      (List.range hiddenLayers).flatMap (fun _ =>
        normPart norm ++
          [NMod.nonlinM, NMod.fc layerType (pyOr nHidden n) hiddenWidth hiddenWidth
            hiddenSegments]), ?_⟩
    rw [hpat]

/-- C9: a `HighOrderFullyConvolutionalNetwork` built with a non-`None`
normalization inserts the one normalization object passed in — the same
instance each time, identified by its tag — exactly once before every
convolutional layer, including before the first (so normalization is applied
to the raw input), and no normalization follows the final layer: the layer
list is the interleaving of normalization and convolutional stages, its head
is the normalization module, its last entry is the final convolutional layer,
every normalization entry is the passed-in instance, and the normalization
occurs once per layer. -/
theorem C9_normalization_before_every_conv_layer (layerType : List String)
    (n channels segments kernelSize : List ℕ) (t : ℕ) (h : 2 ≤ channels.length) :
    convLayerList layerType n channels segments kernelSize (some t) =
      (List.range (channels.length - 1)).flatMap
        (fun i => [NMod.normM t, convStage layerType n channels segments kernelSize i]) ∧
    (convLayerList layerType n channels segments kernelSize (some t)).count
      (NMod.normM t) = channels.length - 1 ∧
    (∀ s : ℕ, NMod.normM s ∈ convLayerList layerType n channels segments kernelSize (some t) →
      s = t) ∧
    (convLayerList layerType n channels segments kernelSize (some t)).head? =
      some (NMod.normM t) ∧
    (convLayerList layerType n channels segments kernelSize (some t)).getLast? =
      some (convStage layerType n channels segments kernelSize (channels.length - 2)) := by
  have hpat : convLayerList layerType n channels segments kernelSize (some t) =
      (List.range (channels.length - 1)).flatMap
        (fun i => [NMod.normM t, convStage layerType n channels segments kernelSize i]) := by
    simp [convLayerList, normPart, convStage]
  have hf : ∀ i s, convStage layerType n channels segments kernelSize i ≠ NMod.normM s := by
    intro i s
    simp [convStage]
  have hk : 0 < channels.length - 1 := by omega
  refine ⟨hpat, ?_, ?_, ?_, ?_⟩
  · rw [hpat]
    exact blockFlat_count t _ (fun i => hf i t) _
  · intro s hs
    rw [hpat] at hs
    exact blockFlat_mem_norm t _ hf _ s hs
  · rw [hpat]
    exact blockFlat_head t _ _ hk
  · rw [hpat, blockFlat_getLast t _ _ hk]
    have h2 : channels.length - 1 - 1 = channels.length - 2 := by omega
    rw [h2]

/-- Witness for C9 at a concrete two-layer network:
`channels = [1, 2, 3]`, normalization instance tagged `7`. -/
theorem C9_normalization_witness :
    2 ≤ ([1, 2, 3] : List ℕ).length ∧
      (convLayerList [("a"), ("b")] [2, 3] [1, 2, 3] [1, 1] [3, 3] (some 7) =
        (List.range (([1, 2, 3] : List ℕ).length - 1)).flatMap
          (fun i => [NMod.normM 7, convStage [("a"), ("b")] [2, 3] [1, 2, 3] [1, 1] [3, 3] i]) ∧
      (convLayerList [("a"), ("b")] [2, 3] [1, 2, 3] [1, 1] [3, 3] (some 7)).count
        (NMod.normM 7) = ([1, 2, 3] : List ℕ).length - 1 ∧
      (∀ s : ℕ, NMod.normM s ∈ convLayerList [("a"), ("b")] [2, 3] [1, 2, 3] [1, 1] [3, 3]
          (some 7) → s = 7) ∧
      (convLayerList [("a"), ("b")] [2, 3] [1, 2, 3] [1, 1] [3, 3] (some 7)).head? =
        some (NMod.normM 7) ∧
      (convLayerList [("a"), ("b")] [2, 3] [1, 2, 3] [1, 1] [3, 3] (some 7)).getLast? =
        some (convStage [("a"), ("b")] [2, 3] [1, 2, 3] [1, 1] [3, 3]
          (([1, 2, 3] : List ℕ).length - 2))) :=
  ⟨by decide,
    C9_normalization_before_every_conv_layer [("a"), ("b")] [2, 3] [1, 2, 3] [1, 1] [3, 3] 7
      (by decide)⟩

/-- C3 counterexample: the engine does not skip structural-only entries.  On
two topologically identical `HighOrderMLP`s with a nonlinearity and no hidden
layer (layer lists `[layer, nonlinearity, nonlinearity, layer]`), the filter
at `networks.py` lines 380–389 removes only the `nn.Sequential` container, so
the pair at position 1 is a pair of nonlinearity instances — not a pair of
weight-bearing layers. -/
theorem C3_structural_entries_paired_counterexample :
    (EModule.nonlin, EModule.nonlin) ∈
      enginePairs
        [EModule.poly ⟨[0], [1]⟩, EModule.nonlin, EModule.nonlin, EModule.poly ⟨[0], [2]⟩]
        [EModule.poly ⟨[0], [3]⟩, EModule.nonlin, EModule.nonlin, EModule.poly ⟨[0], [4]⟩] ∧
    EModule.nonlin.isWeightBearing = false :=
  ⟨by decide, rfl⟩

/-- C3 (amended): `interpolate_high_order_mlp` filters out only the
`nn.Sequential` container; every other module — normalization and
nonlinearity instances included — is kept, and the `k`-th remaining module of
the source is paired with the `k`-th remaining module of the target,
positionally, with no skipping of structural-only entries. -/
theorem C3_pairs_all_nonsequential_modules (a b : List EModule)
    (ha : ∀ m ∈ a, m.isSeq = false) (hb : ∀ m ∈ b, m.isSeq = false) :
    enginePairs a b = a.zip b := by
  unfold enginePairs
  rw [engineLayers_of_noSeq ha, engineLayers_of_noSeq hb]

/-- Witness for the amended C3 on concrete module lists containing structural
entries. -/
theorem C3_pairs_witness :
    (∀ m ∈ [EModule.poly ⟨[0], [1]⟩, EModule.norm, EModule.nonlin], m.isSeq = false) ∧
    (∀ m ∈ [EModule.poly ⟨[0], [2]⟩, EModule.norm, EModule.nonlin], m.isSeq = false) ∧
    enginePairs [EModule.poly ⟨[0], [1]⟩, EModule.norm, EModule.nonlin]
        [EModule.poly ⟨[0], [2]⟩, EModule.norm, EModule.nonlin] =
      List.zip [EModule.poly ⟨[0], [1]⟩, EModule.norm, EModule.nonlin]
        [EModule.poly ⟨[0], [2]⟩, EModule.norm, EModule.nonlin] :=
  ⟨by decide, by decide,
    C3_pairs_all_nonsequential_modules _ _ (by decide) (by decide)⟩

lemma layerEval_single (node w x : ℚ) : layerEval ⟨[node], [w]⟩ x = w := by
  unfold layerEval basisEvalQ
  simp

lemma refineLayer_single (node w node' : ℚ) :
    refineLayer ⟨[node], [w]⟩ [node'] = ⟨[node'], [w]⟩ := by
  unfold refineLayer
  simp [layerEval_single]

/-- C2 counterexample: running the engine on a 3-layer source and a 2-layer
target raises no structural-mismatch error and does mutate the target's
weights.  `zip` truncates to the shorter module list, the loop runs to
completion, and both target layers are overwritten (weights `[0]` become `[5]`
and `[6]`), so the result differs from the untouched target — the opposite of
all-or-nothing abortion. -/
theorem C2_mismatch_no_error_counterexample :
    runEngine
        [EModule.poly ⟨[0], [5]⟩, EModule.poly ⟨[0], [6]⟩, EModule.poly ⟨[0], [7]⟩]
        [EModule.poly ⟨[0], [0]⟩, EModule.poly ⟨[0], [0]⟩] =
      [EModule.poly ⟨[0], [5]⟩, EModule.poly ⟨[0], [6]⟩] ∧
    runEngine
        [EModule.poly ⟨[0], [5]⟩, EModule.poly ⟨[0], [6]⟩, EModule.poly ⟨[0], [7]⟩]
        [EModule.poly ⟨[0], [0]⟩, EModule.poly ⟨[0], [0]⟩] ≠
      [EModule.poly ⟨[0], [0]⟩, EModule.poly ⟨[0], [0]⟩] := by
  have h1 : runEngine
      [EModule.poly ⟨[0], [5]⟩, EModule.poly ⟨[0], [6]⟩, EModule.poly ⟨[0], [7]⟩]
      [EModule.poly ⟨[0], [0]⟩, EModule.poly ⟨[0], [0]⟩] =
    [EModule.poly ⟨[0], [5]⟩, EModule.poly ⟨[0], [6]⟩] := by
    show List.zipWith interpPolyLayer _ _ ++ _ = _
    rw [show engineLayers
        [EModule.poly ⟨[0], [5]⟩, EModule.poly ⟨[0], [6]⟩, EModule.poly ⟨[0], [7]⟩] =
      [EModule.poly ⟨[0], [5]⟩, EModule.poly ⟨[0], [6]⟩, EModule.poly ⟨[0], [7]⟩] from rfl]
    rw [show engineLayers [EModule.poly ⟨[0], [0]⟩, EModule.poly ⟨[0], [0]⟩] =
      [EModule.poly ⟨[0], [0]⟩, EModule.poly ⟨[0], [0]⟩] from rfl]
    simp [interpPolyLayer, refineLayer_single]
  refine ⟨h1, ?_⟩
  rw [h1]
  intro hcontra
  have h5 : (5 : ℚ) = 0 := by
    have := List.head_eq_of_cons_eq hcontra
    simpa [PolyLayer.mk.injEq] using this
  norm_num at h5

/-- C2 (amended): `interpolate_high_order_mlp` performs no structural
validation at all — there is no error path in the function.  `zip` silently
truncates the pairing to the shorter of the two module lists, every paired
target module is overwritten in place from the positionally corresponding
source module, any trailing target modules are left untouched, and the engine
always completes, returning the target's full module list (so on a layer-count
mismatch the target is partially overwritten rather than left intact). -/
theorem C2_engine_truncates_and_overwrites (a b : List EModule)
    (ha : ∀ m ∈ a, m.isSeq = false) (hb : ∀ m ∈ b, m.isSeq = false) :
    runEngine a b = List.zipWith interpPolyLayer a b ++ b.drop a.length ∧
    (runEngine a b).length = b.length := by
  have hr : runEngine a b = List.zipWith interpPolyLayer a b ++ b.drop a.length := by
    unfold runEngine
    rw [engineLayers_of_noSeq ha, engineLayers_of_noSeq hb]
  refine ⟨hr, ?_⟩
  rw [hr]
  simp only [List.length_append, List.length_zipWith, List.length_drop]
  omega

/-- Witness for the amended C2 at the concrete 3-layer/2-layer pair. -/
theorem C2_engine_truncates_witness :
    (∀ m ∈ [EModule.poly ⟨[0], [5]⟩, EModule.poly ⟨[0], [6]⟩, EModule.poly ⟨[0], [7]⟩],
      m.isSeq = false) ∧
    (∀ m ∈ [EModule.poly ⟨[0], [0]⟩, EModule.poly ⟨[0], [0]⟩], m.isSeq = false) ∧
    (runEngine
        [EModule.poly ⟨[0], [5]⟩, EModule.poly ⟨[0], [6]⟩, EModule.poly ⟨[0], [7]⟩]
        [EModule.poly ⟨[0], [0]⟩, EModule.poly ⟨[0], [0]⟩] =
      List.zipWith interpPolyLayer
        [EModule.poly ⟨[0], [5]⟩, EModule.poly ⟨[0], [6]⟩, EModule.poly ⟨[0], [7]⟩]
        [EModule.poly ⟨[0], [0]⟩, EModule.poly ⟨[0], [0]⟩] ++
      ([EModule.poly ⟨[0], [0]⟩, EModule.poly ⟨[0], [0]⟩] : List EModule).drop 3 ∧
    (runEngine
        [EModule.poly ⟨[0], [5]⟩, EModule.poly ⟨[0], [6]⟩, EModule.poly ⟨[0], [7]⟩]
        [EModule.poly ⟨[0], [0]⟩, EModule.poly ⟨[0], [0]⟩]).length = 2) :=
  ⟨by decide, by decide,
    C2_engine_truncates_and_overwrites
      [EModule.poly ⟨[0], [5]⟩, EModule.poly ⟨[0], [6]⟩, EModule.poly ⟨[0], [7]⟩]
      [EModule.poly ⟨[0], [0]⟩, EModule.poly ⟨[0], [0]⟩] (by decide) (by decide)⟩

/-- C7: the expansion layout invariant.  For an input batch of shape
`(B, C, H, W)` and basis order `n`, `Expansion2d.__call__` produces shape
`(B, C·n, H, W)` (the return type of `expansion2d`), and for every logical
channel `c` and coefficient index `k`, output channel `c·n + k` at every
batch/spatial position is exactly coefficient `k` of the basis expansion of
input channel `c` at that position — the coefficient index varies fastest
within each logical channel's block and no cross-channel mixing occurs. -/
theorem C7_expansion_layout_invariant (n B C H W : ℕ) (basis : ℚ → Fin n → ℚ)
    (input : Fin B → Fin C → Fin H → Fin W → ℚ)
    (b : Fin B) (c : Fin C) (h : Fin H) (w : Fin W) (k : Fin n) :
    expansion2d n B C H W basis input b (chanIndex c k) h w = basis (input b c h w) k := by
  unfold expansion2d permute0312 mergeLastTwo permute13420 basisApply chanIndex
  have hn : 0 < n := lt_of_le_of_lt (Nat.zero_le _) k.2
  have hdiv : (c.1 * n + k.1) / n = c.1 := by
    have hc : c.1 * n + k.1 = k.1 + n * c.1 := by ring
    rw [hc, Nat.add_mul_div_left _ _ hn, Nat.div_eq_of_lt k.2, Nat.zero_add]
  have hmod : (c.1 * n + k.1) % n = k.1 := by
    rw [Nat.mul_comm, Nat.mul_add_mod, Nat.mod_eq_of_lt k.2]
  have e1 : ∀ pf : (c.1 * n + k.1) / n < C, (⟨(c.1 * n + k.1) / n, pf⟩ : Fin C) = c :=
    fun _ => Fin.ext hdiv
  have e2 : ∀ pf : (c.1 * n + k.1) % n < n, (⟨(c.1 * n + k.1) % n, pf⟩ : Fin n) = k :=
    fun _ => Fin.ext hmod
  dsimp only
  rw [e1, e2]

/-- C1: p-refinement exactness of the Order-Interpolation Engine.  For a
source network and a target network of identical topology (equal counts of
weight-bearing layers) whose per-layer basis orders are at least the
source's (with distinct interpolation nodes on both sides), running
`interpolate_high_order_mlp` — the traversal from `networks.py` lines 380–394
with the per-layer resampling modelled from the spec — produces a target
network whose forward output equals the source network's forward output at
every input in the domain (exactly, over `ℚ`). -/
theorem C1_p_refinement_preserves_network_function (src tgt : List PolyLayer)
    (hlen : src.length = tgt.length)
    (hcond : ∀ i < src.length,
      (src.getD i ⟨[], []⟩).nodes.Nodup ∧ (tgt.getD i ⟨[], []⟩).nodes.Nodup ∧
        (src.getD i ⟨[], []⟩).nodes.length ≤ (tgt.getD i ⟨[], []⟩).nodes.length)
    (x : ℚ) :
    forwardE (runEngine (src.map EModule.poly) (tgt.map EModule.poly)) x =
      forwardE (src.map EModule.poly) x := by
  rw [runEngine_map_poly src tgt hlen, forwardE_map_poly, forwardE_map_poly,
    netEval_refined src tgt hlen hcond]

/-- Witness for C1: a source layer of order 2 (nodes 0, 1, weights 3, 7 — the
function 3 + 4x) refined onto a target of order 3 (nodes 0, 1, 2), evaluated
at x = 5. -/
theorem C1_p_refinement_witness :
    ([(⟨[0, 1], [3, 7]⟩ : PolyLayer)]).length = ([(⟨[0, 1, 2], [9, 9, 9]⟩ : PolyLayer)]).length ∧
    (∀ i < ([(⟨[0, 1], [3, 7]⟩ : PolyLayer)]).length,
      (([(⟨[0, 1], [3, 7]⟩ : PolyLayer)]).getD i ⟨[], []⟩).nodes.Nodup ∧
        (([(⟨[0, 1, 2], [9, 9, 9]⟩ : PolyLayer)]).getD i ⟨[], []⟩).nodes.Nodup ∧
        (([(⟨[0, 1], [3, 7]⟩ : PolyLayer)]).getD i ⟨[], []⟩).nodes.length ≤
          (([(⟨[0, 1, 2], [9, 9, 9]⟩ : PolyLayer)]).getD i ⟨[], []⟩).nodes.length) ∧
    forwardE (runEngine ([(⟨[0, 1], [3, 7]⟩ : PolyLayer)].map EModule.poly)
        ([(⟨[0, 1, 2], [9, 9, 9]⟩ : PolyLayer)].map EModule.poly)) 5 =
      forwardE ([(⟨[0, 1], [3, 7]⟩ : PolyLayer)].map EModule.poly) 5 :=
  ⟨rfl, by decide,
    C1_p_refinement_preserves_network_function
      [(⟨[0, 1], [3, 7]⟩ : PolyLayer)] [(⟨[0, 1, 2], [9, 9, 9]⟩ : PolyLayer)]
      rfl (by decide) 5⟩

end FunctionalLayers
